import Mathlib

/-!
Shallow embedding of `stdnum/it/aic.py` (Italian AIC pharmaceutical codes).

The module manipulates short strings: a 9-digit "base10" form and a
6-character "base32" form over the alphabet `0123456789BCDFGHJKLMNPQRSTUVWXYZ`.
Python strings are modelled as Lean `String`; character-level operations
(`str.upper`, `str.strip`, indexing) are modelled on `List Char` via `.data`.
Functions that can raise one of the module's validation errors return
`Except AicError _`; functions that can raise `ValueError` from `int()`
return `Option _` (that branch is unreachable from the validation entry
points, which check the characters first).
-/

namespace AIC

/-- The three validation-failure kinds raised by the module
(`InvalidFormat`, `InvalidLength`, `InvalidChecksum`); all are
subclasses of `ValidationError`, which is what `is_valid` catches. -/
inductive AicError where
  | invalidFormat
  | invalidLength
  | invalidChecksum
deriving DecidableEq, Repr

/-- Source constant `AIC_TABLE = '0123456789BCDFGHJKLMNPQRSTUVWXYZ'`, the base32 alphabet. -/
def AIC_TABLE : String := "0123456789BCDFGHJKLMNPQRSTUVWXYZ"

/-- The decimal digit characters, used to model Python `str(...)` of a `Nat`:
`digitChar d` is the character for digit value `d < 10`. -/
def digitChar (d : Nat) : Char := "0123456789".data.getD d '0'

/-- Numeric value of a decimal digit character, modelling Python `int(c)`
on a single character already known to be a digit. -/
def digitVal (c : Char) : Nat := c.toNat - 48

/-- Little-endian decimal digit emission, modelling the digits produced by
Python `str(n)` for a natural number (least significant first).  Structural
recursion on a fuel argument encodes the repeated division by 10; the fuel
is irrelevant as long as it exceeds `n` (see `decLoopF_eq`). -/
def decLoopF : Nat → Nat → List Char
  | 0, _ => []
  | fuel + 1, n => if n > 9 then digitChar (n % 10) :: decLoopF fuel (n / 10) else [digitChar n]

/-- The little-endian decimal digits of `n` (`[digitChar n]` for `n ≤ 9`). -/
def decLoop (n : Nat) : List Char := decLoopF (n + 1) n

/-- Python `str(n)` for a natural number `n`: its decimal digits,
most significant first. -/
def natStr (n : Nat) : String := String.mk (decLoop n).reverse

/-- Value of a little-endian list of decimal digit characters:
`decValueLE [c0, c1, ...] = digitVal c0 + 10 * (digitVal c1 + ...)`. -/
def decValueLE : List Char → Nat
  | [] => 0
  | c :: cs => digitVal c + 10 * decValueLE cs

/-- Python `int(s)` modelled for the digit strings this module feeds it:
succeeds exactly when `s` is a non-empty string of decimal digits and
returns its value.  (`int` also accepts signs and surrounding whitespace,
which never occur at the call site `to_base32`.) -/
def parseInt? (s : String) : Option Nat :=
  if s.data ≠ [] ∧ s.data.all Char.isDigit then some (decValueLE s.data.reverse) else none

/-- Python `str.zfill(width)` for the sign-free strings used here:
left-pad with `'0'` to at least `width` characters. -/
def zfill (s : String) (width : Nat) : String :=
  String.mk (List.replicate (width - s.length) '0' ++ s.data)

/-- The value accumulated by the loop of `from_base32` on a little-endian list of
characters: `tot = Σ AIC_TABLE.index(c.upper()) * 32^idx`, failing with
`InvalidFormat` when a character is not in the table (Python `str.index`
raises `ValueError`, which `from_base32` converts). -/
def base32Value : List Char → Except AicError Nat
  | [] => Except.ok 0
  | c :: cs =>
    match AIC_TABLE.data.findIdx? (fun x => x = c.toUpper), base32Value cs with
    | some i, Except.ok rest => Except.ok (i + 32 * rest)
    | _, _ => Except.error AicError.invalidFormat

/-- Source function `from_base32(string)`: reverse the string, accumulate
`AIC_TABLE.index(x.upper()) * 32**idx`, raise `InvalidFormat` if a
character is not in the table, and return `str(tot).zfill(9)`. -/
def from_base32 (string : String) : Except AicError String :=
  match base32Value string.data.reverse with
  | Except.ok tot => Except.ok (zfill (natStr tot) 9)
  | Except.error e => Except.error e

/-- The `while remainder > 31` loop of `to_base32`, emitting
`AIC_TABLE[remainder % 32]` (least significant first) and finally
`AIC_TABLE[remainder]`; structural recursion on a fuel argument encodes
the loop, and the fuel is irrelevant as long as it exceeds the start
value (see `to_base32_digitsF_eq`). -/
def to_base32_digitsF : Nat → Nat → List Char
  | 0, _ => []
  | fuel + 1, remainder =>
    if remainder > 31 then
      AIC_TABLE.data.getD (remainder % 32) '0' :: to_base32_digitsF fuel (remainder / 32)
    else
      [AIC_TABLE.data.getD remainder '0']

/-- The little-endian base32 digits of `remainder` (the list `res` built by
`to_base32` before it is reversed). -/
def to_base32_digits (remainder : Nat) : List Char := to_base32_digitsF (remainder + 1) remainder

/-- Source function `to_base32(string)`: `remainder = int(string)` (a `ValueError` there is
modelled by `none`), emit base32 digits least-significant-first, reverse,
and `zfill(6)`. -/
def to_base32 (string : String) : Option String :=
  (parseInt? string).map fun remainder =>
    zfill (String.mk (to_base32_digits remainder).reverse) 6

/-- Source function `calc_check_digit(aic)`: zip the weights `(1, 2, 1, 2, 1, 2, 1, 2)`
with the characters of `aic` (Python `zip` truncates to the shorter
sequence, so at most the first 8 characters are used), fold each weighted
digit with `x // 10 + x % 10`, and return `str(sum % 10)`.  `int(n)` on a
non-digit character raises `ValueError`, modelled by `none`; every call
site has already checked the characters. -/
def calc_check_digit (aic : String) : Option String :=
  let pairs := List.zip [1, 2, 1, 2, 1, 2, 1, 2] aic.data
  if pairs.all fun p => p.2.isDigit then
    some (natStr ((pairs.map fun p => (p.1 * digitVal p.2) / 10 + (p.1 * digitVal p.2) % 10).sum % 10))
  else
    none

/-- Source function `check_base10_checksum(aic)`: recompute the check digit and compare it
with `aic[-1]`.  The call site (`is_base10`) guarantees `aic` has 9
characters, so `aic[-1]` is modelled as the last character. -/
def check_base10_checksum (aic : String) : Option Bool :=
  (calc_check_digit aic).map fun char => String.mk [aic.data.getLastD ' '] = char

/-- Source function `is_base10(code)`: `InvalidLength` unless the length is 9;
`InvalidFormat` unless every character, uppercased, is one of the first 10
table characters (`AIC_TABLE[:10]`); `InvalidFormat` unless the first
character is `'0'`; `InvalidChecksum` if the checksum comparison is false;
otherwise `True`.  The `none` branch of `check_base10_checksum` is
unreachable: the charset check guarantees all zipped characters are
digits. -/
def is_base10 (code : String) : Except AicError Bool :=
  if code.length ≠ 9 then Except.error AicError.invalidLength
  else if ¬ (code.data.all fun c => c.toUpper ∈ AIC_TABLE.data.take 10) then
    Except.error AicError.invalidFormat
  else if code.data.getD 0 ' ' ≠ '0' then Except.error AicError.invalidFormat
  else
    match check_base10_checksum code with
    | some res => if res then Except.ok res else Except.error AicError.invalidChecksum
    | none => Except.error AicError.invalidFormat

/-- Source function `is_base32(code)`: `InvalidLength` unless the length is 6;
`InvalidFormat` unless every character, uppercased, is in `AIC_TABLE`;
then convert with `from_base32` (whose `InvalidFormat` would propagate)
and return `is_base10` of the converted string. -/
def is_base32 (code : String) : Except AicError Bool :=
  if code.length ≠ 6 then Except.error AicError.invalidLength
  else if ¬ (code.data.all fun c => c.toUpper ∈ AIC_TABLE.data) then
    Except.error AicError.invalidFormat
  else
    match from_base32 code with
    | Except.ok converted => is_base10 converted
    | Except.error e => Except.error e

/-- Modelled from the spec: the cleaning collaborator `stdnum.util.clean`
(not part of the provided sources) "removes specified characters (here: a
space) from the string". -/
def clean (text : String) (deletechars : String) : String :=
  String.mk (text.data.filter fun c => ¬ c ∈ deletechars.data)

/-- Python `str.strip` on a list of characters: drop whitespace from the
front, then from the back. -/
def stripChars (l : List Char) : List Char :=
  (((l.dropWhile Char.isWhitespace).reverse.dropWhile Char.isWhitespace)).reverse

/-- Source function `compact(code)`: `clean(code, ' ').upper().strip()`.  The
`isinstance(code, str)` guard is vacuous in this typed embedding, where
the input is always a string. -/
def compact (code : String) : String :=
  String.mk (stripChars (((clean code " ").data.map Char.toUpper)))

/-- Source function `validate(code)`: compact, then dispatch on the compacted length —
6 characters go through `is_base32` and are returned converted by
`from_base32`, anything else goes through `is_base10` and is returned
as-is. -/
def validate (code : String) : Except AicError String :=
  let code := compact code
  if code.length = 6 then
    match is_base32 code with
    | Except.ok _ => from_base32 code
    | Except.error e => Except.error e
  else
    match is_base10 code with
    | Except.ok _ => Except.ok code
    | Except.error e => Except.error e

/-- Source function `is_valid(code)`: `bool(validate(code))`, with every
`ValidationError` (the three `AicError` kinds) turned into `False`.
`bool` of a string is its non-emptiness. -/
def is_valid (code : String) : Bool :=
  match validate code with
  | Except.ok s => s ≠ ""
  | Except.error _ => false

-- Decidable equality on results, used to evaluate the model on concrete inputs.
deriving instance DecidableEq for Except

theorem char_toNat_lt (c : Char) : c.toNat < 1114112 := by
  rcases c.valid with h | h
  · exact Nat.lt_trans h (by decide)
  · exact h.2

theorem char_eq_of_toNat_eq {c d : Char} (h : c.toNat = d.toNat) : c = d :=
  Char.ext (UInt32.eq_of_toBitVec_eq (BitVec.eq_of_toNat_eq h))

theorem char_toNat_ofNat {n : Nat} (h : n < 55296) : (Char.ofNat n).toNat = n := by
  rw [Char.ofNat, dif_pos (Or.inl h)]
  rfl

theorem toUpper_eq_self {c : Char} (h : ¬ (97 ≤ c.toNat ∧ c.toNat ≤ 122)) : c.toUpper = c := by
  rw [Char.toUpper, if_neg]
  exact h

theorem toNat_toUpper_of_lower {c : Char} (h : 97 ≤ c.toNat ∧ c.toNat ≤ 122) :
    (c.toUpper).toNat = c.toNat - 32 := by
  rw [Char.toUpper, if_pos h, char_toNat_ofNat (by omega)]

theorem toUpper_toUpper (c : Char) : c.toUpper.toUpper = c.toUpper := by
  by_cases h : 97 ≤ c.toNat ∧ c.toNat ≤ 122
  · have h2 := toNat_toUpper_of_lower h
    exact toUpper_eq_self (by omega)
  · rw [toUpper_eq_self h, toUpper_eq_self h]

theorem isDigit_iff {c : Char} : c.isDigit = true ↔ 48 ≤ c.toNat ∧ c.toNat ≤ 57 := by
  simp only [Char.isDigit, Bool.and_eq_true, decide_eq_true_eq, UInt32.le_def, BitVec.le_def]
  exact Iff.rfl

theorem mem_take10_iff {c : Char} : c ∈ AIC_TABLE.data.take 10 ↔ c.isDigit = true := by
  constructor
  · intro h
    have he : AIC_TABLE.data.take 10 = ['0', '1', '2', '3', '4', '5', '6', '7', '8', '9'] := by decide
    rw [he] at h
    simp only [List.mem_cons, List.not_mem_nil, or_false] at h
    rcases h with rfl | rfl | rfl | rfl | rfl | rfl | rfl | rfl | rfl | rfl <;> decide
  · intro h
    have hb := isDigit_iff.mp h
    have hn : c.toNat = 48 ∨ c.toNat = 49 ∨ c.toNat = 50 ∨ c.toNat = 51 ∨ c.toNat = 52 ∨
        c.toNat = 53 ∨ c.toNat = 54 ∨ c.toNat = 55 ∨ c.toNat = 56 ∨ c.toNat = 57 := by omega
    have hc : c = Char.ofNat c.toNat := (Char.ofNat_toNat c).symm
    rcases hn with h1 | h1 | h1 | h1 | h1 | h1 | h1 | h1 | h1 | h1 <;>
      rw [h1] at hc <;> rw [hc] <;> decide

theorem toUpper_eq_of_isDigit {c : Char} (h : c.isDigit = true) : c.toUpper = c := by
  have := isDigit_iff.mp h
  exact toUpper_eq_self (by omega)

theorem isDigit_of_toUpper_mem_take10 {c : Char} (h : c.toUpper ∈ AIC_TABLE.data.take 10) :
    c.isDigit = true := by
  by_cases hl : 97 ≤ c.toNat ∧ c.toNat ≤ 122
  · have h1 := toNat_toUpper_of_lower hl
    have h2 := isDigit_iff.mp (mem_take10_iff.mp h)
    omega
  · rw [toUpper_eq_self hl] at h
    exact mem_take10_iff.mp h

theorem digitVal_lt_10 {c : Char} (h : c.isDigit = true) : digitVal c < 10 := by
  have := isDigit_iff.mp h
  unfold digitVal
  omega

theorem digitVal_inj {c d : Char} (hc : c.isDigit = true) (hd : d.isDigit = true)
    (h : digitVal c = digitVal d) : c = d := by
  have h1 := isDigit_iff.mp hc
  have h2 := isDigit_iff.mp hd
  unfold digitVal at h
  exact char_eq_of_toNat_eq (by omega)

theorem digitChar_isDigit : ∀ d, d < 10 → (digitChar d).isDigit = true := by decide

theorem digitVal_digitChar : ∀ d, d < 10 → digitVal (digitChar d) = d := by decide

theorem digitChar_ne_zero : ∀ d, d < 10 → 1 ≤ d → digitChar d ≠ '0' := by decide

theorem decLoopF_irrel : ∀ f g n, n < f → n < g → decLoopF f n = decLoopF g n := by
  intro f
  induction f with
  | zero => intro g n h; omega
  | succ f ih =>
    intro g n hf hg
    cases g with
    | zero => omega
    | succ g =>
      simp only [decLoopF]
      by_cases h9 : n > 9
      · rw [if_pos h9, if_pos h9]
        have hd : n / 10 < n := Nat.div_lt_self (by omega) (by omega)
        rw [ih g (n / 10) (by omega) (by omega)]
      · rw [if_neg h9, if_neg h9]

theorem decLoop_eq (n : Nat) :
    decLoop n = if n > 9 then digitChar (n % 10) :: decLoop (n / 10) else [digitChar n] := by
  have h0 : decLoopF (n + 1) n =
      if n > 9 then digitChar (n % 10) :: decLoopF n (n / 10) else [digitChar n] := rfl
  unfold decLoop
  rw [h0]
  by_cases h9 : n > 9
  · rw [if_pos h9, if_pos h9]
    have hd : n / 10 < n := Nat.div_lt_self (by omega) (by omega)
    rw [decLoopF_irrel n (n / 10 + 1) (n / 10) (by omega) (by omega)]
  · rw [if_neg h9, if_neg h9]

theorem decValueLE_decLoop (n : Nat) : decValueLE (decLoop n) = n := by
  induction n using Nat.strong_induction_on with
  | _ n ih =>
    rw [decLoop_eq]
    by_cases h9 : n > 9
    · rw [if_pos h9]
      have hd : n / 10 < n := Nat.div_lt_self (by omega) (by omega)
      simp only [decValueLE, ih (n / 10) hd, digitVal_digitChar (n % 10) (by omega)]
      omega
    · rw [if_neg h9]
      simp only [decValueLE, digitVal_digitChar n (by omega)]
      omega

theorem decLoop_ne_nil (n : Nat) : decLoop n ≠ [] := by
  rw [decLoop_eq]
  by_cases h9 : n > 9
  · rw [if_pos h9]; exact List.cons_ne_nil _ _
  · rw [if_neg h9]; exact List.cons_ne_nil _ _

theorem decLoop_digits (n : Nat) : ∀ c ∈ decLoop n, c.isDigit = true := by
  induction n using Nat.strong_induction_on with
  | _ n ih =>
    rw [decLoop_eq]
    by_cases h9 : n > 9
    · rw [if_pos h9]
      intro c hc
      rcases List.mem_cons.mp hc with rfl | hc
      · exact digitChar_isDigit (n % 10) (by omega)
      · exact ih (n / 10) (Nat.div_lt_self (by omega) (by omega)) c hc
    · rw [if_neg h9]
      intro c hc
      rcases List.mem_cons.mp hc with rfl | hc
      · exact digitChar_isDigit n (by omega)
      · simp at hc

theorem decLoop_length_le {n k : Nat} (h : n < 10 ^ k) (hk : 1 ≤ k) :
    (decLoop n).length ≤ k := by
  induction n using Nat.strong_induction_on generalizing k with
  | _ n ih =>
    rw [decLoop_eq]
    by_cases h9 : n > 9
    · rw [if_pos h9]
      have hk2 : 2 ≤ k := by
        by_contra hc
        have : k = 1 := by omega
        subst this
        simp [pow_one] at h
        omega
      have hlt : n / 10 < 10 ^ (k - 1) := by
        rw [Nat.div_lt_iff_lt_mul (by omega)]
        calc n < 10 ^ k := h
        _ = 10 ^ (k - 1) * 10 := by
            rw [← pow_succ]
            congr 1
            omega
      have := ih (n / 10) (Nat.div_lt_self (by omega) (by omega)) hlt (by omega)
      simp only [List.length_cons]
      omega
    · rw [if_neg h9]
      simp only [List.length_cons, List.length_nil]
      omega

theorem decLoop_length_ge {n k : Nat} (h : 10 ^ k ≤ n) : k + 1 ≤ (decLoop n).length := by
  induction n using Nat.strong_induction_on generalizing k with
  | _ n ih =>
    rw [decLoop_eq]
    by_cases h9 : n > 9
    · rw [if_pos h9]
      simp only [List.length_cons]
      rcases Nat.eq_zero_or_pos k with rfl | hk
      · omega
      · have hge : 10 ^ (k - 1) ≤ n / 10 := by
          rw [Nat.le_div_iff_mul_le (by omega)]
          calc 10 ^ (k - 1) * 10 = 10 ^ k := by
                rw [← pow_succ]
                congr 1
                omega
          _ ≤ n := h
        have := ih (n / 10) (Nat.div_lt_self (by omega) (by omega)) hge
        omega
    · rw [if_neg h9]
      have : k = 0 := by
        by_contra hc
        have h10 : 10 ≤ 10 ^ k := by
          calc 10 = 10 ^ 1 := (pow_one 10).symm
          _ ≤ 10 ^ k := Nat.pow_le_pow_right (by omega) (by omega)
        omega
      subst this
      simp

theorem decLoop_getLast_ne_zero {n : Nat} (h : 1 ≤ n) :
    ∀ c, (decLoop n).getLast? = some c → c ≠ '0' := by
  induction n using Nat.strong_induction_on with
  | _ n ih =>
    rw [decLoop_eq]
    by_cases h9 : n > 9
    · rw [if_pos h9]
      intro c hc
      have hne := decLoop_ne_nil (n / 10)
      rcases hd : decLoop (n / 10) with _ | ⟨b, l⟩
      · exact absurd hd hne
      · rw [hd] at hc
        rw [List.getLast?_cons_cons] at hc
        apply ih (n / 10) (Nat.div_lt_self (by omega) (by omega)) (by
          have : 10 ≤ n := by omega
          omega) c
        rw [hd]
        exact hc
    · rw [if_neg h9]
      intro c hc
      simp only [List.getLast?_singleton, Option.some_inj] at hc
      subst hc
      exact digitChar_ne_zero n (by omega) h

theorem decValueLE_lt {l : List Char} (h : ∀ c ∈ l, c.isDigit = true) :
    decValueLE l < 10 ^ l.length := by
  induction l with
  | nil => simp [decValueLE]
  | cons c cs ih =>
    have hc := digitVal_lt_10 (h c (List.mem_cons_self c cs))
    have hcs := ih fun d hd => h d (List.mem_cons_of_mem c hd)
    simp only [decValueLE, List.length_cons, pow_succ]
    omega

theorem decValueLE_append_zeros (l : List Char) (k : Nat) :
    decValueLE (l ++ List.replicate k '0') = decValueLE l := by
  induction l with
  | nil =>
    simp only [List.nil_append]
    induction k with
    | zero => rfl
    | succ k ih =>
      simp only [List.replicate_succ, decValueLE, ih]
      rfl
  | cons c cs ih =>
    simp only [List.cons_append, decValueLE]
    rw [show cs.append (List.replicate k '0') = cs ++ List.replicate k '0' from rfl, ih]

theorem decValueLE_inj : ∀ (l₁ l₂ : List Char), l₁.length = l₂.length →
    (∀ c ∈ l₁, c.isDigit = true) → (∀ c ∈ l₂, c.isDigit = true) →
    decValueLE l₁ = decValueLE l₂ → l₁ = l₂ := by
  intro l₁
  induction l₁ with
  | nil =>
    intro l₂ hlen _ _ _
    cases l₂ with
    | nil => rfl
    | cons c cs => simp at hlen
  | cons c cs ih =>
    intro l₂ hlen h1 h2 hv
    cases l₂ with
    | nil => simp at hlen
    | cons d ds =>
      have hcd : c.isDigit = true := h1 c (List.mem_cons_self c cs)
      have hdd : d.isDigit = true := h2 d (List.mem_cons_self d ds)
      have hc10 := digitVal_lt_10 hcd
      have hd10 := digitVal_lt_10 hdd
      simp only [decValueLE] at hv
      have hveq : digitVal c = digitVal d ∧ decValueLE cs = decValueLE ds := by
        constructor <;> omega
      have hch : c = d := digitVal_inj hcd hdd hveq.1
      have htl : cs = ds := by
        apply ih ds (by simpa using hlen)
          (fun x hx => h1 x (List.mem_cons_of_mem c hx))
          (fun x hx => h2 x (List.mem_cons_of_mem d hx)) hveq.2
      rw [hch, htl]

theorem findIdx_table_getD :
    ∀ k, k < 32 →
      AIC_TABLE.data.findIdx? (fun x => x = (AIC_TABLE.data.getD k '0').toUpper) = some k := by
  decide

theorem getD_table_mem : ∀ k, k < 32 → AIC_TABLE.data.getD k '0' ∈ AIC_TABLE.data := by decide

theorem to_base32_digitsF_irrel : ∀ f g n, n < f → n < g →
    to_base32_digitsF f n = to_base32_digitsF g n := by
  intro f
  induction f with
  | zero => intro g n h; omega
  | succ f ih =>
    intro g n hf hg
    cases g with
    | zero => omega
    | succ g =>
      simp only [to_base32_digitsF]
      by_cases h31 : n > 31
      · rw [if_pos h31, if_pos h31]
        have hd : n / 32 < n := Nat.div_lt_self (by omega) (by omega)
        rw [ih g (n / 32) (by omega) (by omega)]
      · rw [if_neg h31, if_neg h31]

theorem to_base32_digits_eq (n : Nat) :
    to_base32_digits n =
      if n > 31 then AIC_TABLE.data.getD (n % 32) '0' :: to_base32_digits (n / 32)
      else [AIC_TABLE.data.getD n '0'] := by
  have h0 : to_base32_digitsF (n + 1) n =
      if n > 31 then AIC_TABLE.data.getD (n % 32) '0' :: to_base32_digitsF n (n / 32)
      else [AIC_TABLE.data.getD n '0'] := rfl
  unfold to_base32_digits
  rw [h0]
  by_cases h31 : n > 31
  · rw [if_pos h31, if_pos h31]
    have hd : n / 32 < n := Nat.div_lt_self (by omega) (by omega)
    rw [to_base32_digitsF_irrel n (n / 32 + 1) (n / 32) (by omega) (by omega)]
  · rw [if_neg h31, if_neg h31]

theorem base32Value_to_base32_digits (n : Nat) :
    base32Value (to_base32_digits n) = Except.ok n := by
  induction n using Nat.strong_induction_on with
  | _ n ih =>
    rw [to_base32_digits_eq]
    by_cases h31 : n > 31
    · rw [if_pos h31]
      have hd : n / 32 < n := Nat.div_lt_self (by omega) (by omega)
      simp only [base32Value, findIdx_table_getD (n % 32) (by omega), ih (n / 32) hd]
      congr 1
      omega
    · rw [if_neg h31]
      have h32 : n + 32 * 0 = n := by omega
      simp only [base32Value, findIdx_table_getD n (by omega), h32]

theorem to_base32_digits_mem (n : Nat) :
    ∀ c ∈ to_base32_digits n, c ∈ AIC_TABLE.data := by
  induction n using Nat.strong_induction_on with
  | _ n ih =>
    rw [to_base32_digits_eq]
    by_cases h31 : n > 31
    · rw [if_pos h31]
      intro c hc
      rcases List.mem_cons.mp hc with rfl | hc
      · exact getD_table_mem (n % 32) (by omega)
      · exact ih (n / 32) (Nat.div_lt_self (by omega) (by omega)) c hc
    · rw [if_neg h31]
      intro c hc
      rcases List.mem_cons.mp hc with rfl | hc
      · exact getD_table_mem n (by omega)
      · simp at hc

theorem to_base32_digits_length_le {n k : Nat} (h : n < 32 ^ k) (hk : 1 ≤ k) :
    (to_base32_digits n).length ≤ k := by
  induction n using Nat.strong_induction_on generalizing k with
  | _ n ih =>
    rw [to_base32_digits_eq]
    by_cases h31 : n > 31
    · rw [if_pos h31]
      have hk2 : 2 ≤ k := by
        by_contra hc
        have : k = 1 := by omega
        subst this
        simp [pow_one] at h
        omega
      have hlt : n / 32 < 32 ^ (k - 1) := by
        rw [Nat.div_lt_iff_lt_mul (by omega)]
        calc n < 32 ^ k := h
        _ = 32 ^ (k - 1) * 32 := by
            rw [← pow_succ]
            congr 1
            omega
      have := ih (n / 32) (Nat.div_lt_self (by omega) (by omega)) hlt (by omega)
      simp only [List.length_cons]
      omega
    · rw [if_neg h31]
      simp only [List.length_cons, List.length_nil]
      omega

theorem base32Value_replicate_zero (k : Nat) :
    base32Value (List.replicate k '0') = Except.ok 0 := by
  induction k with
  | zero => rfl
  | succ k ih =>
    simp only [List.replicate_succ, base32Value, ih]
    rfl

theorem base32Value_append_zeros {l : List Char} {v : Nat} (k : Nat)
    (h : base32Value l = Except.ok v) :
    base32Value (l ++ List.replicate k '0') = Except.ok v := by
  induction l generalizing v with
  | nil =>
    simp only [base32Value] at h
    cases h
    simpa using base32Value_replicate_zero k
  | cons c cs ih =>
    simp only [base32Value] at h ⊢
    rcases hf : AIC_TABLE.data.findIdx? (fun x => x = c.toUpper) with _ | i
    · rw [hf] at h
      simp at h
    · rw [hf] at h
      rcases hv : base32Value cs with e | rest
      · rw [hv] at h
        simp at h
      · rw [hv] at h
        simp only at h
        cases h
        rw [show cs.append (List.replicate k '0') = cs ++ List.replicate k '0' from rfl, ih hv]

theorem findIdx_exists_of_mem {a : Char} :
    ∀ (l : List Char) (s : Nat), a ∈ l →
      ∃ i, List.findIdx? (fun x => x = a) l s = some i := by
  intro l
  induction l with
  | nil => intro s h; simp at h
  | cons b bs ih =>
    intro s h
    rw [List.findIdx?_cons]
    by_cases hb : b = a
    · rw [if_pos (by simp [hb])]
      exact ⟨s, rfl⟩
    · rw [if_neg (by simp [hb])]
      rcases List.mem_cons.mp h with h | h
      · exact absurd h.symm hb
      · exact ih (s + 1) h

theorem base32Value_ok_of_mem {l : List Char}
    (h : ∀ c ∈ l, c.toUpper ∈ AIC_TABLE.data) :
    ∃ v, base32Value l = Except.ok v := by
  induction l with
  | nil => exact ⟨0, rfl⟩
  | cons c cs ih =>
    obtain ⟨i, hi⟩ := findIdx_exists_of_mem AIC_TABLE.data 0 (h c (List.mem_cons_self c cs))
    obtain ⟨v, hv⟩ := ih fun d hd => h d (List.mem_cons_of_mem c hd)
    refine ⟨i + 32 * v, ?_⟩
    simp only [base32Value, hi, hv]

theorem data_mk (l : List Char) : (String.mk l).data = l := rfl

theorem length_mk (l : List Char) : (String.mk l).length = l.length := rfl

theorem zfill_data (s : String) (w : Nat) :
    (zfill s w).data = List.replicate (w - s.length) '0' ++ s.data := rfl

theorem zfill_length (s : String) (w : Nat) : (zfill s w).length = max w s.length := by
  have hl : (zfill s w).length = (w - s.length) + s.data.length := by
    rw [show (zfill s w).length = (zfill s w).data.length from rfl, zfill_data,
      List.length_append, List.length_replicate]
  have : s.data.length = s.length := rfl
  omega

theorem natStr_data (n : Nat) : (natStr n).data = (decLoop n).reverse := rfl

theorem natStr_length (n : Nat) : (natStr n).length = (decLoop n).length := by
  rw [show (natStr n).length = (natStr n).data.length from rfl, natStr_data,
    List.length_reverse]

theorem is_base10_ok_elim {code : String} {b : Bool} (h : is_base10 code = Except.ok b) :
    code.length = 9 ∧ (∀ c ∈ code.data, c.toUpper ∈ AIC_TABLE.data.take 10) ∧
      code.data.getD 0 ' ' = '0' ∧ b = true := by
  unfold is_base10 at h
  split_ifs at h with h1 h2 h3
  rcases hc : check_base10_checksum code with _ | res
  · rw [hc] at h
    simp at h
  · rw [hc] at h
    cases res with
    | false => simp at h
    | true =>
      simp only [if_pos] at h
      cases h
      push_neg at h1 h3
      refine ⟨h1, ?_, h3, rfl⟩
      intro c hcmem
      have h2' := List.all_eq_true.mp h2 c hcmem
      simpa using h2'

theorem mk_data (s : String) : String.mk s.data = s := by
  cases s
  rfl

theorem parseInt_digits {s : String} (h1 : s.data ≠ [])
    (h2 : ∀ c ∈ s.data, c.isDigit = true) :
    parseInt? s = some (decValueLE s.data.reverse) := by
  unfold parseInt?
  rw [if_pos]
  exact ⟨h1, List.all_eq_true.mpr h2⟩

theorem to_base32_of_parse {s : String} {n : Nat} (h : parseInt? s = some n) :
    to_base32 s = some (zfill (String.mk (to_base32_digits n).reverse) 6) := by
  unfold to_base32
  rw [h]
  rfl

theorem from_base32_zfill_digits (n : Nat) :
    from_base32 (zfill (String.mk (to_base32_digits n).reverse) 6) = Except.ok (zfill (natStr n) 9) := by
  have hdata : (zfill (String.mk (to_base32_digits n).reverse) 6).data.reverse =
      to_base32_digits n ++ List.replicate (6 - (to_base32_digits n).length) '0' := by
    simp only [zfill_data, data_mk, length_mk, List.reverse_append, List.reverse_replicate,
      List.reverse_reverse, List.length_reverse]
  unfold from_base32
  rw [hdata, base32Value_append_zeros _ (base32Value_to_base32_digits n)]

theorem zfill_natStr_eq {l : List Char} (hlen : l.length = 9)
    (hd : ∀ c ∈ l, c.isDigit = true) :
    zfill (natStr (decValueLE l.reverse)) 9 = String.mk l := by
  set n := decValueLE l.reverse with hn
  have hrd : ∀ c ∈ l.reverse, c.isDigit = true := fun c hc => hd c (List.mem_reverse.mp hc)
  have hnlt : n < 10 ^ 9 := by
    have := decValueLE_lt hrd
    rwa [List.length_reverse, hlen] at this
  have hL : (decLoop n).length ≤ 9 := decLoop_length_le hnlt (by omega)
  apply String.ext
  rw [zfill_data, natStr_data, natStr_length, data_mk]
  set k := 9 - (decLoop n).length with hk
  have hrevval : decValueLE (List.replicate k '0' ++ (decLoop n).reverse).reverse = n := by
    rw [List.reverse_append, List.reverse_replicate, List.reverse_reverse,
      decValueLE_append_zeros, decValueLE_decLoop]
  have hrevdig : ∀ c ∈ (List.replicate k '0' ++ (decLoop n).reverse).reverse, c.isDigit = true := by
    intro c hc
    rw [List.mem_reverse] at hc
    rcases List.mem_append.mp hc with hc | hc
    · rw [List.eq_of_mem_replicate hc]
      decide
    · exact decLoop_digits n c (List.mem_reverse.mp hc)
  have hrevlen : (List.replicate k '0' ++ (decLoop n).reverse).reverse.length = l.reverse.length := by
    simp only [List.length_reverse, List.length_append, List.length_replicate, hlen]
    omega
  have hrev := decValueLE_inj _ _ hrevlen hrevdig hrd (by rw [hrevval, hn])
  have := congrArg List.reverse hrev
  rwa [List.reverse_reverse, List.reverse_reverse] at this

theorem base10_digits {code : String} {b : Bool} (h : is_base10 code = Except.ok b) :
    ∀ c ∈ code.data, c.isDigit = true := by
  intro c hc
  exact isDigit_of_toUpper_mem_take10 ((is_base10_ok_elim h).2.1 c hc)

/-- C1: for every valid 9-character base10 digit string `c` (correct check
digit, leading `'0'`, i.e. `is_base10 c` succeeds), applying `to_base32` to
`c` and then `from_base32` to the result reproduces `c` exactly as a
9-character zero-padded string. -/
theorem round_trip_valid_base10 (c : String) (h : is_base10 c = Except.ok true) :
    ∃ t, to_base32 c = some t ∧ from_base32 t = Except.ok c := by
  obtain ⟨hlen, hmem, h0, _⟩ := is_base10_ok_elim h
  have hdig := base10_digits h
  have hne : c.data ≠ [] := by
    intro hnil
    have h9 : c.data.length = 9 := hlen
    rw [hnil] at h9
    simp at h9
  have hp := parseInt_digits hne hdig
  refine ⟨_, to_base32_of_parse hp, ?_⟩
  rw [from_base32_zfill_digits, zfill_natStr_eq (show c.data.length = 9 from hlen) hdig, mk_data]

/-- Witness for C1 at the valid code `"000000000"`. -/
theorem round_trip_valid_base10_witness :
    is_base10 "000000000" = Except.ok true ∧
      ∃ t, to_base32 "000000000" = some t ∧ from_base32 t = Except.ok "000000000" :=
  ⟨rfl, round_trip_valid_base10 "000000000" rfl⟩

/-- C10: for every decimal digit string whose integer value is below
`32 ^ 6`, `to_base32` succeeds and returns a string of exactly 6
characters, all drawn from the base32 alphabet. -/
theorem to_base32_in_range (s : String) (n : Nat) (hp : parseInt? s = some n)
    (hlt : n < 32 ^ 6) :
    ∃ t, to_base32 s = some t ∧ t.length = 6 ∧ ∀ c ∈ t.data, c ∈ AIC_TABLE.data := by
  refine ⟨_, to_base32_of_parse hp, ?_, ?_⟩
  · rw [zfill_length, length_mk, List.length_reverse]
    have := to_base32_digits_length_le hlt (by omega)
    omega
  · intro ch hch
    rw [zfill_data, data_mk] at hch
    rcases List.mem_append.mp hch with hch | hch
    · rw [List.eq_of_mem_replicate hch]
      decide
    · exact to_base32_digits_mem n ch (List.mem_reverse.mp hch)

/-- Witness for C10 at `"000000123"` (value 123). -/
theorem to_base32_in_range_witness :
    parseInt? "000000123" = some 123 ∧ 123 < 32 ^ 6 ∧
      ∃ t, to_base32 "000000123" = some t ∧ t.length = 6 ∧ ∀ c ∈ t.data, c ∈ AIC_TABLE.data :=
  ⟨rfl, by decide, to_base32_in_range "000000123" 123 rfl (by decide)⟩

theorem zip_take_length {α β : Type} (ws : List α) (l : List β) :
    List.zip ws (l.take ws.length) = List.zip ws l := by
  induction ws generalizing l with
  | nil => simp
  | cons w ws ih =>
    cases l with
    | nil => simp
    | cons c l =>
      simp only [List.length_cons, List.take_succ_cons, List.zip_cons_cons, ih]

theorem zip_map_range (ws : List Nat) (l : List Char) (f : Nat → Char → Nat)
    (h : ws.length ≤ l.length) :
    (List.zip ws l).map (fun p => f p.1 p.2) =
      (List.range ws.length).map (fun i => f (ws.getD i 0) (l.getD i '0')) := by
  induction ws generalizing l with
  | nil => simp
  | cons w ws ih =>
    cases l with
    | nil => simp at h
    | cons c l =>
      simp only [List.zip_cons_cons, List.map_cons, List.length_cons, List.range_succ_eq_map,
        List.map_map]
      congr 1
      rw [ih l (by simpa using h)]
      apply List.map_congr_left
      intro i _
      simp [List.getD_cons_succ]

theorem weights_getD : ∀ i, i < 8 →
    List.getD [1, 2, 1, 2, 1, 2, 1, 2] i 0 = if i % 2 = 0 then 1 else 2 := by decide

theorem calc_check_digit_eq_of_all (aic : String)
    (h : (List.zip [1, 2, 1, 2, 1, 2, 1, 2] aic.data).all (fun p => p.2.isDigit) = true) :
    calc_check_digit aic =
      some (natStr (((List.zip [1, 2, 1, 2, 1, 2, 1, 2] aic.data).map fun p =>
        (p.1 * digitVal p.2) / 10 + (p.1 * digitVal p.2) % 10).sum % 10)) := by
  unfold calc_check_digit
  rw [if_pos h]

/-- C3: for every 8-or-9-character decimal digit string `s`,
`calc_check_digit s` equals the decimal digit string of
`(Σ over positions i = 0..7 of fold(w i * d i)) % 10`, where `d i` is the
digit at position `i`, the weights alternate 1,2,1,2,1,2,1,2 starting with
1 at position 0, and `fold x = x / 10 + x % 10`; moreover the result
depends only on the first 8 characters. -/
theorem calc_check_digit_spec (s : String) (hlen : s.length = 8 ∨ s.length = 9)
    (hd : ∀ c ∈ s.data, c.isDigit = true) :
    calc_check_digit s =
      some (natStr ((((List.range 8).map fun i =>
        ((if i % 2 = 0 then 1 else 2) * digitVal (s.data.getD i '0')) / 10 +
          ((if i % 2 = 0 then 1 else 2) * digitVal (s.data.getD i '0')) % 10).sum) % 10)) ∧
    calc_check_digit s = calc_check_digit (String.mk (s.data.take 8)) := by
  have h8 : ([1, 2, 1, 2, 1, 2, 1, 2] : List Nat).length = 8 := rfl
  have hlen' : ([1, 2, 1, 2, 1, 2, 1, 2] : List Nat).length ≤ s.data.length := by
    have hsd : s.data.length = s.length := rfl
    rw [h8]
    omega
  have hguard : (List.zip [1, 2, 1, 2, 1, 2, 1, 2] s.data).all (fun p => p.2.isDigit) = true := by
    rw [List.all_eq_true]
    intro p hp
    exact hd p.2 (List.of_mem_zip hp).2
  have hz := zip_map_range [1, 2, 1, 2, 1, 2, 1, 2] s.data
    (fun w c => (w * digitVal c) / 10 + (w * digitVal c) % 10) hlen'
  rw [h8] at hz
  have hz' : ((List.range 8).map fun i =>
      ((List.getD [1, 2, 1, 2, 1, 2, 1, 2] i 0) * digitVal (s.data.getD i '0')) / 10 +
        ((List.getD [1, 2, 1, 2, 1, 2, 1, 2] i 0) * digitVal (s.data.getD i '0')) % 10) =
      ((List.range 8).map fun i =>
      ((if i % 2 = 0 then 1 else 2) * digitVal (s.data.getD i '0')) / 10 +
        ((if i % 2 = 0 then 1 else 2) * digitVal (s.data.getD i '0')) % 10) := by
    apply List.map_congr_left
    intro i hi
    rw [weights_getD i (List.mem_range.mp hi)]
  constructor
  · rw [calc_check_digit_eq_of_all s hguard, hz, hz']
  · have htake : List.zip ([1, 2, 1, 2, 1, 2, 1, 2] : List Nat)
        ((String.mk (s.data.take 8)).data) = List.zip [1, 2, 1, 2, 1, 2, 1, 2] s.data := by
      rw [data_mk, ← h8, zip_take_length]
    have hg2 : (List.zip [1, 2, 1, 2, 1, 2, 1, 2]
        ((String.mk (s.data.take 8)).data)).all (fun p => p.2.isDigit) = true := by
      rw [htake]
      exact hguard
    rw [calc_check_digit_eq_of_all s hguard, calc_check_digit_eq_of_all _ hg2, htake]

/-- Witness for C3 at `"012345678"`. -/
theorem calc_check_digit_spec_witness :
    calc_check_digit "012345678" = calc_check_digit (String.mk ("012345678".data.take 8)) :=
  (calc_check_digit_spec "012345678" (Or.inr rfl) (by decide)).2

/-- C7: every string whose length is not 9 fails `is_base10` with
`InvalidLength`, and every string whose length is not 6 fails `is_base32`
with `InvalidLength`, regardless of content. -/
theorem length_enforcement (s : String) :
    (s.length ≠ 9 → is_base10 s = Except.error AicError.invalidLength) ∧
    (s.length ≠ 6 → is_base32 s = Except.error AicError.invalidLength) := by
  constructor
  · intro h
    unfold is_base10
    rw [if_pos h]
  · intro h
    unfold is_base32
    rw [if_pos h]

/-- Witness for C7 at the 2-character string `"AB"`. -/
theorem length_enforcement_witness :
    is_base10 "AB" = Except.error AicError.invalidLength ∧
      is_base32 "AB" = Except.error AicError.invalidLength :=
  ⟨(length_enforcement "AB").1 (by decide), (length_enforcement "AB").2 (by decide)⟩

theorem digits_pass_charset {l : List Char} (hd : ∀ c ∈ l, c.isDigit = true) :
    (l.all fun c => c.toUpper ∈ AIC_TABLE.data.take 10) = true := by
  rw [List.all_eq_true]
  intro c hc
  have h1 := hd c hc
  rw [toUpper_eq_of_isDigit h1]
  simpa using mem_take10_iff.mpr h1

/-- Helper: a 9-character decimal digit string whose first character is
not `'0'` fails `is_base10` with `InvalidFormat` (the charset check
passes, the leading-zero check fires before the checksum). -/
theorem is_base10_leading_nonzero (s : String) (hlen : s.length = 9)
    (hd : ∀ c ∈ s.data, c.isDigit = true) (h0 : s.data.getD 0 ' ' ≠ '0') :
    is_base10 s = Except.error AicError.invalidFormat := by
  unfold is_base10
  rw [if_neg (not_not_intro hlen), if_neg (not_not_intro (digits_pass_charset hd)), if_pos h0]

/-- C8: for every 9-character string of decimal digits whose first
character is not `'0'`, `is_base10` fails with `InvalidFormat`, even when
the trailing check digit matches the computed checksum (no checksum
hypothesis is needed: the rejection happens regardless). -/
theorem leading_zero_rule (s : String) (hlen : s.length = 9)
    (hd : ∀ c ∈ s.data, c.isDigit = true) (h0 : s.data.getD 0 ' ' ≠ '0') :
    is_base10 s = Except.error AicError.invalidFormat :=
  is_base10_leading_nonzero s hlen hd h0

/-- Witness for C8 at `"148975314"` (from the specification examples). -/
theorem leading_zero_rule_witness : is_base10 "148975314" = Except.error AicError.invalidFormat :=
  leading_zero_rule "148975314" rfl (by decide) (by decide)


theorem natStr_head_ne_zero {v : Nat} (h1 : 1 ≤ v) :
    (natStr v).data.getD 0 ' ' ≠ '0' := by
  rw [natStr_data]
  rcases hrev : (decLoop v).reverse with _ | ⟨a, rest⟩
  · exact absurd (List.reverse_eq_nil_iff.mp hrev) (decLoop_ne_nil v)
  · have hh : (decLoop v).reverse.head? = some a := by rw [hrev]; rfl
    rw [List.head?_reverse] at hh
    have := decLoop_getLast_ne_zero h1 a hh
    simpa using this

theorem natStr_length_nine {v : Nat} (h1 : 100000000 ≤ v) (h2 : v < 1000000000) :
    (natStr v).length = 9 := by
  rw [natStr_length]
  have hle : (decLoop v).length ≤ 9 := decLoop_length_le (by omega) (by omega)
  have hge : 8 + 1 ≤ (decLoop v).length := decLoop_length_ge (by norm_num; omega)
  omega

theorem zfill_eq_self_of_length {s : String} {w : Nat} (h : w ≤ s.length) : zfill s w = s := by
  apply String.ext
  rw [zfill_data]
  have : w - s.length = 0 := by omega
  rw [this]
  rfl

/-- C5 (amended): for every 6-character string over the alphabet whose
base-32 integer value `v` satisfies `10 ^ 8 ≤ v < 10 ^ 9` (so the 9-digit
decimal form would not start with `'0'`), `is_base32` fails with
`InvalidFormat` — an explicit rejection, not a silent wrap.  (For
`v ≥ 10 ^ 9` the converted string has 10 characters and the failure is
`InvalidLength` instead; see the counterexample.) -/
theorem is_base32_overflow_invalidFormat (s : String) (v : Nat) (h6 : s.length = 6)
    (hm : ∀ c ∈ s.data, c.toUpper ∈ AIC_TABLE.data)
    (hv : base32Value s.data.reverse = Except.ok v)
    (hlo : 100000000 ≤ v) (hhi : v < 1000000000) :
    is_base32 s = Except.error AicError.invalidFormat := by
  have hall : (s.data.all fun c => c.toUpper ∈ AIC_TABLE.data) = true :=
    List.all_eq_true.mpr fun c hc => by simpa using hm c hc
  have hlen9 : (natStr v).length = 9 := natStr_length_nine hlo hhi
  have hzf : zfill (natStr v) 9 = natStr v := zfill_eq_self_of_length (by omega)
  have hfrom : from_base32 s = Except.ok (natStr v) := by
    unfold from_base32
    rw [hv]
    show Except.ok (zfill (natStr v) 9) = Except.ok (natStr v)
    rw [hzf]
  have h10 : is_base10 (natStr v) = Except.error AicError.invalidFormat := by
    apply is_base10_leading_nonzero _ hlen9
    · intro c hc
      rw [natStr_data] at hc
      exact decLoop_digits v c (List.mem_reverse.mp hc)
    · exact natStr_head_ne_zero (by omega)
  unfold is_base32
  rw [if_neg (not_not_intro h6), if_neg (not_not_intro hall), hfrom]
  exact h10

/-- Witness for C5 at `"2ZCS80"`, whose base-32 value is exactly
`10 ^ 8`. -/
theorem is_base32_overflow_invalidFormat_witness :
    base32Value ("2ZCS80").data.reverse = Except.ok 100000000 ∧
      is_base32 "2ZCS80" = Except.error AicError.invalidFormat :=
  ⟨rfl, is_base32_overflow_invalidFormat "2ZCS80" 100000000 rfl (by decide) rfl
    (by decide) (by decide)⟩

/-- Counterexample to C5 as stated: `"ZZZZZZ"` is a 6-character alphabet
string with base-32 value `1073741823 ≥ 10 ^ 8`, yet `is_base32` fails
with `InvalidLength`, not `InvalidFormat`. -/
theorem is_base32_overflow_counterexample :
    ("ZZZZZZ").length = 6 ∧ (∀ c ∈ ("ZZZZZZ").data, c.toUpper ∈ AIC_TABLE.data) ∧
      base32Value ("ZZZZZZ").data.reverse = Except.ok 1073741823 ∧ 100000000 ≤ 1073741823 ∧
      is_base32 "ZZZZZZ" ≠ Except.error AicError.invalidFormat ∧
      is_base32 "ZZZZZZ" = Except.error AicError.invalidLength := by
  refine ⟨rfl, by decide, rfl, by decide, ?_, rfl⟩
  decide

/-- C4 (amended): for every 6-character string whose characters, after
uppercasing, are all members of the 32-symbol alphabet, `from_base32`
returns the decimal string representation of the accumulated base-32
integer left-zero-padded to 9 characters; the result has at least 9
characters, and exactly 9 if and only if the integer is below `10 ^ 9`. -/
theorem from_base32_spec (s : String) (h6 : s.length = 6)
    (hm : ∀ c ∈ s.data, c.toUpper ∈ AIC_TABLE.data) :
    ∃ v, base32Value s.data.reverse = Except.ok v ∧
      from_base32 s = Except.ok (zfill (natStr v) 9) ∧
      9 ≤ (zfill (natStr v) 9).length ∧
      ((zfill (natStr v) 9).length = 9 ↔ v < 1000000000) := by
  obtain ⟨v, hv⟩ := base32Value_ok_of_mem
    (l := s.data.reverse) fun c hc => hm c (List.mem_reverse.mp hc)
  refine ⟨v, hv, ?_, ?_, ?_⟩
  · unfold from_base32
    rw [hv]
  · rw [zfill_length]
    omega
  · rw [zfill_length, natStr_length]
    constructor
    · intro h
      by_contra hc
      have := decLoop_length_ge (n := v) (k := 9) (by omega)
      omega
    · intro h
      have h1 : 1 ≤ (decLoop v).length := by
        have := decLoop_ne_nil v
        cases hd : decLoop v with
        | nil => exact absurd hd this
        | cons a l => simp
      have := decLoop_length_le (n := v) (k := 9) (by omega) (by omega)
      omega

/-- Witness for C4 at `"2ZCS80"`. -/
theorem from_base32_spec_witness :
    ∃ v, base32Value ("2ZCS80").data.reverse = Except.ok v ∧
      from_base32 "2ZCS80" = Except.ok (zfill (natStr v) 9) ∧
      9 ≤ (zfill (natStr v) 9).length ∧
      ((zfill (natStr v) 9).length = 9 ↔ v < 1000000000) :=
  from_base32_spec "2ZCS80" rfl (by decide)

/-- Counterexample to C4 as stated: `"ZZZZZZ"` is a 6-character alphabet
string, but `from_base32` returns `"1073741823"`, which has 10 characters,
not 9. -/
theorem from_base32_not_always_nine :
    ("ZZZZZZ").length = 6 ∧ (∀ c ∈ ("ZZZZZZ").data, c.toUpper ∈ AIC_TABLE.data) ∧
      ∃ t, from_base32 "ZZZZZZ" = Except.ok t ∧ t.length ≠ 9 :=
  ⟨rfl, by decide, "1073741823", rfl, by decide⟩

theorem is_base32_ok_from {code : String} {b : Bool} {t : String}
    (h : is_base32 code = Except.ok b) (hf : from_base32 code = Except.ok t) :
    is_base10 t = Except.ok b := by
  unfold is_base32 at h
  by_cases h6 : code.length ≠ 6
  · rw [if_pos h6] at h
    simp at h
  · rw [if_neg h6] at h
    by_cases hc : ¬ (code.data.all fun c => c.toUpper ∈ AIC_TABLE.data)
    · rw [if_pos hc] at h
      simp at h
    · rw [if_neg hc, hf] at h
      exact h

/-- C2: whenever `validate` succeeds it returns the canonical 9-character
base10 digit string — the `from_base32` conversion of the compacted input
when that input has length 6, and the compacted input itself otherwise. -/
theorem validate_canonical (code : String) (s : String) (h : validate code = Except.ok s) :
    s.length = 9 ∧ (∀ c ∈ s.data, c.isDigit = true) ∧
      ((compact code).length = 6 → from_base32 (compact code) = Except.ok s) ∧
      ((compact code).length ≠ 6 → s = compact code) := by
  unfold validate at h
  by_cases h6 : (compact code).length = 6
  · rw [if_pos h6] at h
    rcases h32 : is_base32 (compact code) with e | b
    · rw [h32] at h
      simp at h
    · rw [h32] at h
      have h10 := is_base32_ok_from h32 h
      obtain ⟨hlen, _, _, _⟩ := is_base10_ok_elim h10
      exact ⟨hlen, base10_digits h10, fun _ => h, fun hne => absurd h6 hne⟩
  · rw [if_neg h6] at h
    rcases h10 : is_base10 (compact code) with e | b
    · rw [h10] at h
      simp at h
    · rw [h10] at h
      have hs : compact code = s := by
        simpa using h
      subst hs
      obtain ⟨hlen, _, _, _⟩ := is_base10_ok_elim h10
      exact ⟨hlen, base10_digits h10, fun hc => absurd hc h6, fun _ => rfl⟩

/-- Witness for C2 at the valid base10 code `"000000000"`. -/
theorem validate_canonical_witness :
    validate "000000000" = Except.ok "000000000" ∧
      ("000000000").length = 9 ∧ (∀ c ∈ ("000000000").data, c.isDigit = true) ∧
      ((compact "000000000").length = 6 →
        from_base32 (compact "000000000") = Except.ok "000000000") ∧
      ((compact "000000000").length ≠ 6 → "000000000" = compact "000000000") :=
  ⟨rfl, validate_canonical "000000000" "000000000" rfl⟩

/-- C6: `is_valid` returns `true` exactly when `validate` succeeds with a
non-empty string, and returns `false` (rather than letting the error
escape) whenever `validate` fails with any of the validation-failure
kinds. -/
theorem is_valid_boundary (code : String) :
    (is_valid code = true ↔ ∃ s, validate code = Except.ok s ∧ s ≠ "") ∧
    (∀ e, validate code = Except.error e → is_valid code = false) := by
  constructor
  · rcases hv : validate code with e | s
    · simp [is_valid, hv]
    · simp [is_valid, hv]
  · intro e he
    simp [is_valid, he]

/-- Witness for C6 at the invalid input `"not a code"`. -/
theorem is_valid_boundary_witness : is_valid "not a code" = false :=
  (is_valid_boundary "not a code").2 AicError.invalidLength (by decide)

theorem dropWhile_dropWhile {α : Type} (p : α → Bool) (l : List α) :
    List.dropWhile p (List.dropWhile p l) = List.dropWhile p l := by
  induction l with
  | nil => rfl
  | cons a l ih =>
    rw [List.dropWhile_cons]
    by_cases h : p a = true
    · rw [if_pos h]
      exact ih
    · rw [if_neg h, List.dropWhile_cons, if_neg h]

theorem stripChars_sub {l : List Char} : ∀ c ∈ stripChars l, c ∈ l := by
  intro c hc
  unfold stripChars at hc
  rw [List.mem_reverse] at hc
  have hc2 := (List.dropWhile_suffix Char.isWhitespace).subset hc
  rw [List.mem_reverse] at hc2
  exact (List.dropWhile_suffix Char.isWhitespace).subset hc2

theorem stripChars_idem (l : List Char) : stripChars (stripChars l) = stripChars l := by
  have hA : List.dropWhile Char.isWhitespace (List.dropWhile Char.isWhitespace l) =
      List.dropWhile Char.isWhitespace l := dropWhile_dropWhile _ _
  set A := List.dropWhile Char.isWhitespace l with hAdef
  set B := (List.dropWhile Char.isWhitespace A.reverse).reverse with hBdef
  have hBrev : B.reverse = List.dropWhile Char.isWhitespace A.reverse := by
    rw [hBdef, List.reverse_reverse]
  have hpre : B <+: A := by
    rw [← List.reverse_suffix, hBrev]
    exact List.dropWhile_suffix _
  have hdropB : List.dropWhile Char.isWhitespace B = B := by
    cases hBc : B with
    | nil => rfl
    | cons b B2 =>
      obtain ⟨t, ht⟩ := hpre
      rw [hBc] at ht
      have hAc : A = b :: (B2 ++ t) := by
        rw [← ht]
        rfl
      have hpb : ¬ Char.isWhitespace b = true := by
        intro hb
        have hA2 := hA
        rw [hAc, List.dropWhile_cons, if_pos hb] at hA2
        have hlen := congrArg List.length hA2
        have hle := (List.dropWhile_suffix (l := B2 ++ t) Char.isWhitespace).length_le
        simp only [List.length_cons] at hlen
        omega
      rw [List.dropWhile_cons, if_neg hpb]
  show stripChars B = B
  unfold stripChars
  rw [hdropB, hBrev, dropWhile_dropWhile, ← hBrev, List.reverse_reverse]

theorem toUpper_ne_space {c : Char} (hne : ¬ c ∈ (" " : String).data) :
    ¬ c.toUpper ∈ (" " : String).data := by
  have hsp : (" " : String).data = [' '] := rfl
  rw [hsp] at hne ⊢
  simp only [List.mem_singleton] at hne ⊢
  intro hup
  by_cases hl : 97 ≤ c.toNat ∧ c.toNat ≤ 122
  · have h1 := toNat_toUpper_of_lower hl
    rw [hup] at h1
    have h32 : (' ' : Char).toNat = 32 := rfl
    omega
  · rw [toUpper_eq_self hl] at hup
    exact hne hup

/-- C9: `compact` (strip spaces, uppercase, trim surrounding whitespace)
is idempotent on every string. -/
theorem compact_idempotent (x : String) : compact (compact x) = compact x := by
  set y := stripChars ((clean x " ").data.map Char.toUpper) with hy
  have hcx : compact x = String.mk y := rfl
  rw [hcx]
  have hup : ∀ c ∈ y, Char.toUpper c = c := by
    intro c hc
    have hc2 := stripChars_sub c (hy ▸ hc)
    obtain ⟨d, _, rfl⟩ := List.mem_map.mp hc2
    exact toUpper_toUpper d
  have hnospace : ∀ c ∈ y, ¬ c ∈ (" " : String).data := by
    intro c hc
    have hc2 := stripChars_sub c (hy ▸ hc)
    obtain ⟨d, hd, rfl⟩ := List.mem_map.mp hc2
    unfold clean at hd
    rw [data_mk] at hd
    have hd2 : ¬ d ∈ (" " : String).data := by
      have := List.of_mem_filter hd
      simpa using this
    exact toUpper_ne_space hd2
  show compact (String.mk y) = String.mk y
  unfold compact clean
  rw [data_mk]
  rw [List.filter_eq_self.mpr fun a ha => by simpa using hnospace a ha]
  rw [List.map_congr_left hup, List.map_id']
  rw [stripChars_idem]

end AIC
